import Mathlib

/-!
Verification of the SevaBot Nepali legal RAG pipeline.

Shallow embedding of `chat/nepali_legal_chunker.py` (glyph-repair cleaning,
boundary classification, segmentation state machine, chunk size governor)
and of `chat/rag_service.py` (document processing result record and the
multi-source retrieval merge / dedup / rank engine).

Python strings are modelled as `List Char` (Python `len` counts code points,
as does `List.length` here).  Pure functions are translated directly; the
mutable segmentation cursor of `process_pdf_for_rag` becomes an explicit
state record folded over the input lines.  Randomly generated chunk ids
(`uuid.uuid4`) are external nondeterminism and are omitted from the `Chunk`
record; no claim mentions them.
-/

namespace SevaBot

/-- Python whitespace class `\s` for the inputs in play (ASCII whitespace). -/
def isSpaceChar (c : Char) : Bool :=
  c == ' ' || c == '\t' || c == '\n' || c == '\r' || c == '\x0b' || c == '\x0c'

/-- Devanagari digit class `[०-९]`. -/
def isNepDigit (c : Char) : Bool :=
  0x966 ≤ c.toNat && c.toNat ≤ 0x96F

/-- Devanagari block `[ऀ-ॿ]` (used by the trailing-halanta regex). -/
def isDevanagari (c : Char) : Bool :=
  0x900 ≤ c.toNat && c.toNat ≤ 0x97F

/-- The character class `[–-—\s]` of `chapter_pattern`: the range
U+2013..U+2014 (the ASCII `-` in the middle is the range operator)
together with whitespace. -/
def isChapterSep (c : Char) : Bool :=
  (0x2013 ≤ c.toNat && c.toNat ≤ 0x2014) || isSpaceChar c

/-- Sentence terminators `[।॥]` used by `_split_large_chunk`. -/
def isTermChar (c : Char) : Bool :=
  c == '।' || c == '॥'

/-- ASCII-only lowering; the garbage-line needles (`lawcommission`, `www`)
are pure ASCII, so this agrees with Python `str.lower` for them. -/
def asciiLower (c : Char) : Char :=
  if 'A' ≤ c && c ≤ 'Z' then Char.ofNat (c.toNat + 32) else c

/-- Python `needle in haystack` (substring occurrence). -/
def containsSub (needle : List Char) : List Char → Bool
  | [] => needle.isEmpty
  | c :: rest => needle.isPrefixOf (c :: rest) || containsSub needle rest

/-- Python `str.replace old new`: left-to-right, non-overlapping, with
explicit fuel to keep the recursion structural (each step consumes at
least one character, so `fuel = length` never runs out).  (The Python
empty-pattern edge case never arises: every pattern used by `clean_text`
is non-empty.) -/
def replaceSubFuel (old new : List Char) : Nat → List Char → List Char
  | 0, t => t
  | _ + 1, [] => []
  | fuel + 1, c :: rest =>
    if old ≠ [] ∧ old.isPrefixOf (c :: rest) then
      new ++ replaceSubFuel old new fuel ((c :: rest).drop old.length)
    else
      c :: replaceSubFuel old new fuel rest

/-- Python `str.replace old new`. -/
def replaceSub (old new : List Char) (t : List Char) : List Char :=
  replaceSubFuel old new t.length t

/-- Python `str.strip` of trailing whitespace only (via reversal). -/
def dropTrailing (l : List Char) : List Char :=
  (l.reverse.dropWhile isSpaceChar).reverse

/-- Python `str.strip`. -/
def strip (l : List Char) : List Char :=
  dropTrailing (l.dropWhile isSpaceChar)

/-- Python `"\n".join`. -/
def joinNL : List (List Char) → List Char
  | [] => []
  | [x] => x
  | x :: y :: ys => x ++ '\n' :: joinNL (y :: ys)

/-- The 20 ordered literal replacements of `clean_text`.  Note: in the
source, the `"""` on the `("æ", ...)` line opens a Python triple-quoted
string, so the `æ` "replacement" is actually a chunk of the source text
itself (spanning into the following line), and no `Æ` rule exists. -/
def replacements : List (List Char × List Char) :=
  [ ("नर्ु".data, "र्नु".data),
    ("नर्े".data, "र्ने".data),
    ("कुराह्र".data, "कुराहरू".data),
    ("ह्र".data, "हरू".data),
    ("पु¥याएमा".data, "पुर्याएमा".data),
    ("¥".data, "र्".data),
    (" ः".data, " :".data),
    ("ः".data, ":".data),
    ("व्यत्तिफ".data, "व्यक्ति".data),
    ("आप्फनो".data, "आफ्नो".data),
    ("ाै".data, "ौ".data),
    ("एे".data, "ऐ".data),
    ("अ्र".data, "अरु".data),
    ("लार्इ".data, "लाई".data),
    ("ª".data, "ङ".data),
    ("Ë".data, "ङ्ग".data),
    ("§".data, "ट्ट".data),
    ("æ".data, "),              # Start quote artifact\n            (\"Æ\", ".data),
    ("दावी".data, "दाबी".data),
    ("  ".data, " ".data) ]

/-- Words allowed to keep a trailing halanta (`keep_halanta`). -/
def keepHalanta : List (List Char) :=
  [ "अर्थात्".data, "सम्भवत्".data, "किञ्चित्".data, "कदाचित्".data,
    "परिषद्".data, "विद्वान्".data, "पश्चात्".data, "सम्राट्".data, "हठात्".data ]

/-- Source `remove_trailing_halanta` applied to the captured word. -/
def removeTrailingHalanta (word : List Char) : List Char :=
  if keepHalanta.contains word then word
  else if word.length < 3 then word
  else word.dropLast

/-- Lookahead class `[\s,।]` of the trailing-halanta regex. -/
def isHalantaLook (c : Char) : Bool :=
  isSpaceChar c || c == ',' || c == '।'

/-- Does the lookahead `(?=[\s,।])` succeed on this remainder? -/
def lookOk : List Char → Bool
  | [] => false
  | c :: _ => isHalantaLook c

/-- Greedy backtracking for `([ऀ-ॿ]+्)(?=[\s,।])` at the start of
a maximal Devanagari run `run` followed by `rest`: the largest `k ≥ 1` such
that the first `k` run characters end in `्` and the lookahead holds at
position `k`.  (Any match inside the run ends at such a `k`, and Python's
scan finds the leftmost match, whose greedy group is the largest `k`.) -/
def findHalantaEnd (run rest : List Char) : Option Nat :=
  (List.range (run.length + 1)).reverse.find? fun k =>
    decide (1 ≤ k) && (run.take k).getLast? == some '्' && lookOk (run.drop k ++ rest)

/-- Embedding of `re.sub(r'([ऀ-ॿ]+्)(?=[\s,।])', remove_trailing_halanta, text)`:
scan left to right; every match begins at the start of a maximal Devanagari
run; the group is replaced and the scan resumes at the group's end (the
lookahead is not consumed).  Fuel keeps the recursion structural; each step
consumes at least one character. -/
def halantaSubFuel : Nat → List Char → List Char
  | 0, t => t
  | _ + 1, [] => []
  | fuel + 1, c :: rest =>
    if isDevanagari c then
      let run := (c :: rest).takeWhile isDevanagari
      let after := (c :: rest).dropWhile isDevanagari
      match findHalantaEnd run after with
      | some k => removeTrailingHalanta (run.take k) ++ halantaSubFuel fuel (run.drop k ++ after)
      | none => run ++ halantaSubFuel fuel after
    else
      c :: halantaSubFuel fuel rest

/-- The trailing-halanta regex substitution. -/
def halantaSub (t : List Char) : List Char :=
  halantaSubFuel t.length t

/-- Source `clean_text` of `NepaliLegalChunker`: the ordered replacement table,
the trailing-halanta regex correction, the two `नागरिक` fixups, removal of
zero-width (non-)joiners, and the `(ª)` fixup, in source order. -/
def clean_text (text : List Char) : List Char :=
  let t1 := replacements.foldl (fun s p => replaceSub p.1 p.2 s) text
  let t2 := halantaSub t1
  let t3 := replaceSub "नागर्ि कता".data "नागरिकता".data t2
  let t4 := replaceSub "नागर्ि क".data "नागरिक".data t3
  let t5 := replaceSub ['\u200d'] [] t4
  let t6 := replaceSub ['\u200c'] [] t5
  replaceSub "(ª)".data "(ङ)".data t6

/-- Every substring whose presence can make some stage of `clean_text`
rewrite the text: the 20 table patterns, the `नागरिक` fixup patterns, the
zero-width characters, and the `(ª)` pattern.  A text is "trigger-free"
when none occurs in it and the trailing-halanta regex leaves it unchanged. -/
def triggerLHS : List (List Char) :=
  replacements.map Prod.fst ++
    [ "नागर्ि कता".data, "नागर्ि क".data, ['\u200d'], ['\u200c'], "(ª)".data ]

/-- Trigger-freeness: no replacement pattern occurs and the
trailing-halanta rewrite is the identity. -/
def cleanTriggerFree (t : List Char) : Bool :=
  triggerLHS.all (fun old => !containsSub old t) && halantaSub t == t

/-- Match of `chapter_pattern`: `^\s*परिच्छेद[–-—\s]+([०-९]+)`, returning the
captured digit group. -/
def chapterMatch (line : List Char) : Option (List Char) :=
  let r := line.dropWhile isSpaceChar
  if "परिच्छेद".data.isPrefixOf r then
    let r1 := r.drop "परिच्छेद".data.length
    let seps := r1.takeWhile isChapterSep
    let r2 := r1.dropWhile isChapterSep
    if seps.isEmpty then none
    else
      let digits := r2.takeWhile isNepDigit
      if digits.isEmpty then none else some digits
  else none

/-- Match of `dafa_pattern`: `^\s*दफा\s+([०-९]+)`. -/
def dafaMatch (line : List Char) : Option (List Char) :=
  let r := line.dropWhile isSpaceChar
  if "दफा".data.isPrefixOf r then
    let r1 := r.drop "दफा".data.length
    let ws := r1.takeWhile isSpaceChar
    let r2 := r1.dropWhile isSpaceChar
    if ws.isEmpty then none
    else
      let digits := r2.takeWhile isNepDigit
      if digits.isEmpty then none else some digits
  else none

/-- Match of `section_pattern`: `^\s*([०-९]+)\.`. -/
def sectionMatch (line : List Char) : Option (List Char) :=
  let r := line.dropWhile isSpaceChar
  let digits := r.takeWhile isNepDigit
  let r1 := r.dropWhile isNepDigit
  if digits.isEmpty then none
  else match r1 with
    | '.' :: _ => some digits
    | _ => none

/-- Match of `\(([०-९]+)\)` at the start of `r`. -/
def parenDigits (r : List Char) : Option (List Char) :=
  match r with
  | '(' :: rest =>
    let digits := rest.takeWhile isNepDigit
    let r1 := rest.dropWhile isNepDigit
    if digits.isEmpty then none
    else match r1 with
      | ')' :: _ => some digits
      | _ => none
  | _ => none

/-- Match of `upa_dafa_pattern`: `^\s*(?:उपदफा\s+)?\(([०-९]+)\)`; the optional
keyword group is tried first, falling back to the bare parenthesized form. -/
def upaMatch (line : List Char) : Option (List Char) :=
  let r := line.dropWhile isSpaceChar
  if "उपदफा".data.isPrefixOf r then
    let r1 := r.drop "उपदफा".data.length
    let ws := r1.takeWhile isSpaceChar
    let r2 := r1.dropWhile isSpaceChar
    if ws.isEmpty then parenDigits r
    else match parenDigits r2 with
      | some d => some d
      | none => parenDigits r
  else parenDigits r

/-- Junk-glyph class `[द्दण्घक्ष्]` (a set of six characters). -/
def isJunkChar (c : Char) : Bool :=
  c == 'द' || c == '्' || c == 'ण' || c == 'घ' || c == 'क' || c == 'ष'

/-- Does `^\s*[cls]+\s*$` fully match the line? -/
def onlyClass (cls : Char → Bool) (line : List Char) : Bool :=
  let r := line.dropWhile isSpaceChar
  let run := r.takeWhile cls
  let r1 := r.dropWhile cls
  !run.isEmpty && (r1.dropWhile isSpaceChar).isEmpty

/-- Source `is_garbage_line` of `NepaliLegalChunker`. -/
def is_garbage_line (line : List Char) : Bool :=
  containsSub "धधध।बिधअयफफष्ककष्यल।नयख।लउ".data line ||
  onlyClass isNepDigit line ||
  onlyClass isJunkChar line ||
  containsSub "lawcommission".data (line.map asciiLower) ||
  containsSub "www".data (line.map asciiLower) ||
  decide ((strip line).length < 3)

/-- Structural marker recognized on a line (the four pattern checks of the
`process_pdf_for_rag` loop, in source order). -/
inductive Boundary where
  | chapter (n : List Char)
  | dafa (n : List Char)
  | sect (n : List Char)
  | upa (n : List Char)
deriving DecidableEq

/-- The `if/elif` cascade of `process_pdf_for_rag`: chapter, then dafa,
then section, then upa-dafa; first match wins. -/
def classify (line : List Char) : Option Boundary :=
  match chapterMatch line with
  | some n => some (.chapter n)
  | none =>
    match dafaMatch line with
    | some n => some (.dafa n)
    | none =>
      match sectionMatch line with
      | some n => some (.sect n)
      | none =>
        match upaMatch line with
        | some n => some (.upa n)
        | none => none

/-- Metadata value: string or number (the chunk metadata dict is
heterogeneous). -/
inductive MVal where
  | s (v : List Char)
  | n (v : Nat)
deriving DecidableEq

/-- A RAG chunk: text plus the metadata dict (association list with the
literal keys written in the source).  The random `id` field is omitted. -/
structure Chunk where
  text : List Char
  metadata : List (String × MVal)
deriving DecidableEq

/-- Metadata dict of a `complete_section` chunk (`_save_chunk_for_rag`). -/
def completeMeta (chapter dafa : List Char) (upaDafa : Option (List Char))
    (title : List Char) (page : Nat) (source : List Char) (est : Nat) :
    List (String × MVal) :=
  [ ("chapter", .s chapter),
    ("dafa", .s dafa),
    ("upa_dafa", .s (upaDafa.getD [])),
    ("hierarchical_title", .s title),
    ("page", .n page),
    ("source", .s source),
    ("chunk_type", .s "complete_section".data),
    ("estimated_tokens", .n est) ]

/-- Metadata dict of a `split_section` chunk (`_split_large_chunk`). -/
def splitMeta (chapter dafa : List Char) (upaDafa : Option (List Char))
    (title : List Char) (page : Nat) (source : List Char)
    (partNumber est : Nat) : List (String × MVal) :=
  [ ("chapter", .s chapter),
    ("dafa", .s dafa),
    ("upa_dafa", .s (upaDafa.getD [])),
    ("hierarchical_title", .s (title ++ " (भाग ".data ++ (Nat.repr partNumber).data ++ [')'])),
    ("page", .n page),
    ("source", .s source),
    ("chunk_type", .s "split_section".data),
    ("part_number", .n partNumber),
    ("estimated_tokens", .n est) ]

/-- One `split_section` chunk as appended by `_split_large_chunk`:
text is the stripped buffer, the estimate is computed on the unstripped
buffer. -/
def mkSplit (chapter dafa : List Char) (upaDafa : Option (List Char))
    (title : List Char) (page : Nat) (source : List Char)
    (current : List Char) (idx : Nat) : Chunk :=
  { text := strip current,
    metadata := splitMeta chapter dafa upaDafa title page source idx (current.length / 4) }

/-- Embedding of `re.split(r'[।॥]\s*', text)`: pieces between terminator-plus-whitespace
matches (pieces may be empty).  Fuel keeps the recursion structural; each
step consumes at least one character. -/
def splitSentFuel : Nat → List Char → List (List Char)
  | 0, _ => [[]]
  | _ + 1, [] => [[]]
  | fuel + 1, c :: rest =>
    if isTermChar c then
      [] :: splitSentFuel fuel (rest.dropWhile isSpaceChar)
    else
      match splitSentFuel fuel rest with
      | [] => [[c]]
      | s :: ss => (c :: s) :: ss

/-- Embedding of `re.split(r'[।॥]\s*', text)`. -/
def splitSent (t : List Char) : List (List Char) :=
  splitSentFuel t.length t

/-- The sentence-accumulation loop of `_split_large_chunk`. -/
def splitGo (chapter dafa : List Char) (upaDafa : Option (List Char))
    (title : List Char) (page : Nat) (source : List Char) (maxTokens : Nat) :
    List (List Char) → List Char → Nat → List Chunk → List Chunk
  | [], current, idx, chunks =>
    if (strip current).isEmpty then chunks
    else chunks ++ [mkSplit chapter dafa upaDafa title page source current idx]
  | s :: rest, current, idx, chunks =>
    let s1 := strip s
    if s1.isEmpty then splitGo chapter dafa upaDafa title page source maxTokens rest current idx chunks
    else
      let s2 := s1 ++ ['।']
      let test := if current.isEmpty then s2 else current ++ ' ' :: s2
      if maxTokens < test.length / 4 && !current.isEmpty then
        splitGo chapter dafa upaDafa title page source maxTokens rest s2 (idx + 1)
          (chunks ++ [mkSplit chapter dafa upaDafa title page source current idx])
      else
        splitGo chapter dafa upaDafa title page source maxTokens rest test idx chunks

/-- Source `_split_large_chunk`. -/
def splitLargeChunk (chunks : List Chunk) (text chapter dafa : List Char)
    (upaDafa : Option (List Char)) (title : List Char) (page : Nat)
    (source : List Char) (maxTokens : Nat) : List Chunk :=
  splitGo chapter dafa upaDafa title page source maxTokens (splitSent text) [] 1 chunks

/-- Hierarchical breadcrumb title (`_save_chunk_for_rag`): chapter, then
the dafa label unless it is the placeholder `Intro`/`Header`, then the
sub-article label, joined by `" > "`. -/
def hierTitle (chapter dafa : List Char) (upaDafa : Option (List Char)) : List Char :=
  let parts := [chapter] ++
    (if dafa ≠ "Intro".data ∧ dafa ≠ "Header".data then [dafa] else []) ++
    (match upaDafa with | some u => [u] | none => [])
  joinSep " > ".data parts
where
  /-- Python `sep.join`. -/
  joinSep (sep : List Char) : List (List Char) → List Char
    | [] => []
    | [x] => x
    | x :: y :: ys => x ++ sep ++ joinSep sep (y :: ys)

/-- Source `_save_chunk_for_rag`: the chunk size governor's entry point.  Empty or
whitespace-only buffers are dropped; small units become one
`complete_section` chunk; oversized units are split at sentence
boundaries. -/
def saveChunk (chunks : List Chunk) (textLines : List (List Char))
    (chapter dafa : List Char) (upaDafa : Option (List Char)) (page : Nat)
    (source : List Char) (maxTokens : Nat) : List Chunk :=
  if textLines.isEmpty then chunks
  else
    let chunkText := strip (joinNL textLines)
    if chunkText.isEmpty then chunks
    else
      let estimatedTokens := chunkText.length / 4
      let title := hierTitle chapter dafa upaDafa
      if estimatedTokens ≤ maxTokens then
        chunks ++ [{ text := chunkText,
                     metadata := completeMeta chapter dafa upaDafa title page source estimatedTokens }]
      else
        splitLargeChunk chunks chunkText chapter dafa upaDafa title page source maxTokens

/-- The mutable cursor of `process_pdf_for_rag` (chapter / dafa / upa-dafa
labels, line buffer, current page index, emitted chunks). -/
structure SegState where
  chapter : List Char
  dafa : List Char
  upaDafa : Option (List Char)
  textLines : List (List Char)
  pageIdx : Nat
  chunks : List Chunk
deriving DecidableEq

/-- Initial cursor state of `process_pdf_for_rag`. -/
def initState : SegState :=
  { chapter := "Unknown".data, dafa := "Intro".data, upaDafa := none,
    textLines := [], pageIdx := 1, chunks := [] }

/-- The per-line body of the `process_pdf_for_rag` loop.  `pageNum` is the
0-based page index of the enclosing page loop. -/
def processLine (source : List Char) (maxTokens : Nat) (st : SegState)
    (pageNum : Nat) (rawLine : List Char) : SegState :=
  let line := strip rawLine
  if line.isEmpty then st
  else if is_garbage_line line then st
  else
    match classify line with
    | some (.chapter n) =>
      { chapter := "परिच्छेद–".data ++ n, dafa := "Header".data, upaDafa := none,
        textLines := [line], pageIdx := pageNum + 1,
        chunks := saveChunk st.chunks st.textLines st.chapter st.dafa st.upaDafa st.pageIdx source maxTokens }
    | some (.dafa n) =>
      { chapter := st.chapter, dafa := "दफा ".data ++ n, upaDafa := none,
        textLines := [line], pageIdx := pageNum + 1,
        chunks := saveChunk st.chunks st.textLines st.chapter st.dafa st.upaDafa st.pageIdx source maxTokens }
    | some (.sect n) =>
      { chapter := st.chapter, dafa := "दफा ".data ++ n, upaDafa := none,
        textLines := [line], pageIdx := pageNum + 1,
        chunks := saveChunk st.chunks st.textLines st.chapter st.dafa st.upaDafa st.pageIdx source maxTokens }
    | some (.upa n) =>
      let st1 :=
        if st.upaDafa.isSome then
          { st with
            chunks := saveChunk st.chunks st.textLines st.chapter st.dafa st.upaDafa st.pageIdx source maxTokens,
            textLines := [] }
        else st
      { st1 with upaDafa := some ('(' :: n ++ [')']), textLines := st1.textLines ++ [line] }
    | none =>
      { st with textLines := st.textLines ++ [line] }

/-- The final unconditional flush of `process_pdf_for_rag` ("Save the
final chunk"). -/
def runFinish (source : List Char) (maxTokens : Nat) (st : SegState) : List Chunk :=
  saveChunk st.chunks st.textLines st.chapter st.dafa st.upaDafa st.pageIdx source maxTokens

/-- Source `process_pdf_for_rag` on already-extracted, already-cleaned page lines:
the nested page/line loops followed by the final unconditional flush.
(PDF extraction and the legacy-font conversion are external collaborators;
this model starts from the cleaned lines each page contributes.) -/
def processPDF (pages : List (List (List Char))) (source : List Char)
    (maxTokens : Nat) : List Chunk :=
  runFinish source maxTokens
    (pages.enum.foldl
      (fun st pr => pr.2.foldl (fun st l => processLine source maxTokens st pr.1 l) st)
      initState)

/-- Result record of `process_document` (the fields the claims mention).
The embedding/storage steps are external collaborators; `num_pages` is read
from the last chunk's metadata under the key `page_end` with default 0. -/
structure ProcResult where
  success : Bool
  numChunks : Nat
  numPages : MVal
deriving DecidableEq

/-- Source `process_document`: chunk via the Nepali legal chunker with budget 800;
zero chunks is the failure path, otherwise report success with
`num_pages = chunks[-1]['metadata'].get('page_end', 0)`. -/
def processDocument (pages : List (List (List Char))) (source : List Char) : ProcResult :=
  let chunks := processPDF pages source 800
  match chunks.getLast? with
  | none => { success := false, numChunks := 0, numPages := .n 0 }
  | some c =>
    { success := true, numChunks := chunks.length,
      numPages := (c.metadata.lookup "page_end").getD (.n 0) }

/-- One raw hit returned by a vector-store `query` call: id, document
text, and cosine distance. -/
structure SearchHit where
  id : List Char
  text : List Char
  distance : ℚ
deriving DecidableEq

/-- One entry of `retrieve_context`'s result list: id, text, the
normalized relevance score `1 - d/2`, and the origin tag. -/
structure Retrieved where
  id : List Char
  text : List Char
  relevance : ℚ
  source : String
deriving DecidableEq

/-- The per-hit conversion loop of `retrieve_context`: tag every hit with
its origin and the similarity `1 - distance / 2`. -/
def processHits (hits : List SearchHit) (tag : String) : List Retrieved :=
  hits.map fun h => { id := h.id, text := h.text, relevance := 1 - h.distance / 2, source := tag }

/-- Outcome of searching one collection: `none` when that source was not
requested (no collection name / `use_permanent_kb = False`), `some (.error e)`
when the backend raised (caught and logged by `retrieve_context`), and
`some (.ok hits)` on success. -/
abbrev SearchOutcome := Option (Except String (List SearchHit))

/-- Results contributed by one source in `retrieve_context`: an
unrequested or failing source contributes zero results. -/
def sourceResults (outcome : SearchOutcome) (tag : String) : List Retrieved :=
  match outcome with
  | none => []
  | some (.error _) => []
  | some (.ok hits) => processHits hits tag

/-- The `results` list of `retrieve_context` just before sorting: private-collection
hits first, then permanent-collection hits. -/
def mergedResults (user perm : SearchOutcome) : List Retrieved :=
  sourceResults user "user_document" ++ sourceResults perm "permanent_kb"

/-- Stable insertion step for descending relevance: the new element goes
before the first strictly-smaller score, after earlier-encountered equal
scores. -/
def insertDesc (a : Retrieved) : List Retrieved → List Retrieved
  | [] => [a]
  | x :: xs => if x.relevance ≤ a.relevance then a :: x :: xs else x :: insertDesc a xs

/-- Embedding of `results.sort(key=lambda x: x['relevance_score'], reverse=True)`:
Python's sort is stable, so its result is the unique stable descending
order, computed here by stable insertion sort. -/
def sortDesc (l : List Retrieved) : List Retrieved :=
  l.foldr insertDesc []

/-- The dedup loop of `retrieve_context`: walk the (sorted) results
keeping the first occurrence of each text.  (`seen_texts` stores
`hash(r['text'])`; content-hash equality is modelled as text equality.) -/
def dedupGo (seen : List (List Char)) : List Retrieved → List Retrieved
  | [] => []
  | r :: rs =>
    if r.text ∈ seen then dedupGo seen rs
    else r :: dedupGo (r.text :: seen) rs

/-- Source `retrieve_context` after the two collection searches: sort the merged
results by relevance descending, deduplicate by text keeping the first
(post-sort) occurrence, and truncate to `top_k`. -/
def retrieveContext (user perm : SearchOutcome) (topK : Nat) : List Retrieved :=
  (dedupGo [] (sortDesc (mergedResults user perm))).take topK

/-- What the `process_pdf_for_rag` loop keeps of one raw line: the stripped
line, unless it is empty or a garbage line. -/
def keptLine (l : List Char) : Option (List Char) :=
  let s := strip l
  if s.isEmpty then none
  else if is_garbage_line s then none
  else some s

/-- The page/line nesting flattened to (0-based page index, line) pairs in
processing order. -/
def pagesFlat (pages : List (List (List Char))) : List (Nat × List Char) :=
  pages.enum.flatMap fun pr => pr.2.map fun l => (pr.1, l)

/-- The content lines a flattened input contributes, in order. -/
def keptOfFlat (flat : List (Nat × List Char)) : List (List Char) :=
  flat.filterMap fun pl => keptLine pl.2

/-- The content lines of a paged input (input lines with noise and empty
lines removed, as stripped by the loop). -/
def keptLines (pages : List (List (List Char))) : List (List Char) :=
  keptOfFlat (pagesFlat pages)

/-- Shape of any chunk the size governor can emit with budget `mt`: either
a `complete_section` chunk whose estimate is within budget, or a
`split_section` chunk built from a sentence buffer that is within budget
or holds at most one sentence terminator (a single sentence). -/
def GovernedChunk (mt : Nat) (c : Chunk) : Prop :=
  (∃ ch df ud ti pg src,
      c.metadata = completeMeta ch df ud ti pg src (c.text.length / 4) ∧
      c.text.length / 4 ≤ mt) ∨
  (∃ ch df ud ti pg src cur i,
      c = mkSplit ch df ud ti pg src cur i ∧
      (cur.length / 4 ≤ mt ∨ (cur.filter isTermChar).length ≤ 1))

/-! Section: Concrete example inputs used by witnesses and counterexamples -/

/-- The §8 example scenario input (one page, three cleaned lines). -/
def ex8pages : List (List (List Char)) :=
  [[ "परिच्छेद–१ केही कुरा".data,
     "दफा १ यो एक परीक्षण हो।".data,
     "यो लामो पाठ हो।".data ]]

/-- Two pages exercising a sub-article transition across a page break:
a sub-unit is opened by the first line of the second page. -/
def c4pages : List (List (List Char)) :=
  [[ "दफा १ कखग".data, "(१) पहिलो वाक्य".data ],
   [ "(२) दोस्रो वाक्य".data, "दफा २ कखग".data ]]

/-- One page whose single content line exceeds a budget of 1 token and
contains no sentence terminator. -/
def c3pages : List (List (List Char)) :=
  [[ "कखगघकखगघ".data ]]

/-- A private-collection hit with text "A" at distance 1 (score 1/2). -/
def c1userHit : SearchHit := { id := "u1".data, text := "A".data, distance := 1 }

/-- A permanent-collection hit with the same text "A" at distance 1/5
(score 9/10, higher than the private hit's). -/
def c1permHit : SearchHit := { id := "p1".data, text := "A".data, distance := 1/5 }

/-- The chunk the size governor emits for the one-line unit `"कखगघ"` under
the initial labels with budget 800 (estimate 4/4 = 1). -/
def c2chunk : Chunk :=
  { text := "कखगघ".data,
    metadata := completeMeta "Unknown".data "Intro".data none "Unknown".data 1 "doc.pdf".data 1 }

/-! Section: Helper lemmas about `strip` and `joinNL` -/

theorem dropWhile_head_false {p : Char → Bool} {l : List Char} {c : Char}
    (h : l.head? = some c) (hp : p c = false) : l.dropWhile p = l := by
  cases l with
  | nil => rfl
  | cons x xs =>
    simp only [List.head?_cons, Option.some_inj] at h
    subst h
    simp [List.dropWhile_cons, hp]

theorem head?_dropWhile_false (p : Char → Bool) (l : List Char) {c : Char}
    (h : (l.dropWhile p).head? = some c) : p c = false := by
  induction l with
  | nil => simp at h
  | cons x xs ih =>
    rw [List.dropWhile_cons] at h
    by_cases hx : p x
    · rw [if_pos hx] at h; exact ih h
    · rw [if_neg hx] at h
      simp only [List.head?_cons, Option.some_inj] at h
      subst h
      exact eq_false_of_ne_true hx

theorem dropTrailing_isPrefix (l : List Char) : dropTrailing l <+: l := by
  obtain ⟨t, ht⟩ := List.dropWhile_suffix (l := l.reverse) isSpaceChar
  refine ⟨t.reverse, ?_⟩
  have := congrArg List.reverse ht
  simpa [dropTrailing] using this

theorem strip_sublist (l : List Char) : List.Sublist (strip l) l :=
  ((dropTrailing_isPrefix _).sublist).trans (List.dropWhile_suffix isSpaceChar).sublist

theorem strip_length_le (l : List Char) : (strip l).length ≤ l.length :=
  (strip_sublist l).length_le

theorem strip_eq_self {l : List Char}
    (hh : ∀ c ∈ l.head?, isSpaceChar c = false)
    (hl : ∀ c ∈ l.getLast?, isSpaceChar c = false) : strip l = l := by
  have h1 : l.dropWhile isSpaceChar = l := by
    cases hc : l.head? with
    | none => cases l with
      | nil => rfl
      | cons x xs => simp at hc
    | some c => exact dropWhile_head_false hc (hh c (by rw [hc]; rfl))
  have h2 : l.reverse.dropWhile isSpaceChar = l.reverse := by
    cases hc : l.reverse.head? with
    | none =>
      rw [List.head?_reverse] at hc
      cases l with
      | nil => rfl
      | cons x xs => simp [List.getLast?_eq_none_iff] at hc
    | some c =>
      refine dropWhile_head_false hc (hl c ?_)
      rw [← List.head?_reverse, hc]; rfl
  rw [strip, h1, dropTrailing, h2, List.reverse_reverse]

theorem strip_head_false (l : List Char) :
    ∀ c ∈ (strip l).head?, isSpaceChar c = false := by
  intro c hc
  rw [Option.mem_def] at hc
  have hs : strip l = dropTrailing (l.dropWhile isSpaceChar) := rfl
  have hne : dropTrailing (l.dropWhile isSpaceChar) ≠ [] := by
    intro h
    rw [hs, h] at hc
    simp at hc
  obtain ⟨t, ht⟩ := dropTrailing_isPrefix (l.dropWhile isSpaceChar)
  have h2 : (dropTrailing (l.dropWhile isSpaceChar) ++ t).head? =
      (dropTrailing (l.dropWhile isSpaceChar)).head? :=
    List.head?_append_of_ne_nil _ hne
  rw [ht] at h2
  rw [hs, ← h2] at hc
  exact head?_dropWhile_false _ _ hc

theorem strip_last_false (l : List Char) :
    ∀ c ∈ (strip l).getLast?, isSpaceChar c = false := by
  intro c hc
  rw [Option.mem_def, ← List.head?_reverse] at hc
  have : (strip l).reverse = (l.dropWhile isSpaceChar).reverse.dropWhile isSpaceChar := by
    rw [strip, dropTrailing, List.reverse_reverse]
  rw [this] at hc
  exact head?_dropWhile_false _ _ hc

theorem strip_idem (l : List Char) : strip (strip l) = strip l :=
  strip_eq_self (strip_head_false l) (strip_last_false l)

theorem head_false_of_ok {l : List Char} (h : strip l = l) :
    ∀ c ∈ l.head?, isSpaceChar c = false := by
  rw [← h]; exact strip_head_false l

theorem last_false_of_ok {l : List Char} (h : strip l = l) :
    ∀ c ∈ l.getLast?, isSpaceChar c = false := by
  rw [← h]; exact strip_last_false l

theorem joinNL_cons (x : List Char) {ys : List (List Char)} (h : ys ≠ []) :
    joinNL (x :: ys) = x ++ '\n' :: joinNL ys := by
  cases ys with
  | nil => exact absurd rfl h
  | cons y ys' => rfl

theorem joinNL_ne_nil {L : List (List Char)} (hL : L ≠ [])
    (h : ∀ l ∈ L, l ≠ []) : joinNL L ≠ [] := by
  cases L with
  | nil => exact absurd rfl hL
  | cons x xs =>
    cases xs with
    | nil => exact h x (by simp)
    | cons y ys =>
      rw [joinNL_cons x (by simp)]
      intro hcontra
      have := h x (by simp)
      simp only [List.append_eq_nil] at hcontra
      exact this hcontra.1

theorem joinNL_head? {L : List (List Char)} (hL : L ≠ [])
    (h : ∀ l ∈ L, l ≠ []) : (joinNL L).head? = (L.head hL).head? := by
  cases L with
  | nil => exact absurd rfl hL
  | cons x xs =>
    cases xs with
    | nil => rfl
    | cons y ys =>
      rw [joinNL_cons x (by simp), List.head_cons,
        List.head?_append_of_ne_nil _ (h x (by simp))]

theorem joinNL_getLast? {L : List (List Char)} (hL : L ≠ [])
    (h : ∀ l ∈ L, l ≠ []) : (joinNL L).getLast? = (L.getLast hL).getLast? := by
  induction L with
  | nil => exact absurd rfl hL
  | cons x xs ih =>
    cases xs with
    | nil => rfl
    | cons y ys =>
      rw [joinNL_cons x (by simp)]
      have hys : joinNL (y :: ys) ≠ [] :=
        joinNL_ne_nil (by simp) (fun l hl => h l (List.mem_cons_of_mem _ hl))
      rw [List.getLast?_append_of_ne_nil _ (by simp)]
      have hlast : ('\n' :: joinNL (y :: ys)).getLast? = (joinNL (y :: ys)).getLast? := by
        cases hj : joinNL (y :: ys) with
        | nil => exact absurd hj hys
        | cons a as => exact List.getLast?_cons_cons
      rw [hlast, ih (by simp) (fun l hl => h l (List.mem_cons_of_mem _ hl))]
      rfl

theorem joinNL_strip {L : List (List Char)} (hL : L ≠ [])
    (hok : ∀ l ∈ L, strip l = l ∧ l ≠ []) :
    strip (joinNL L) = joinNL L ∧ joinNL L ≠ [] := by
  have hne : ∀ l ∈ L, l ≠ [] := fun l hl => (hok l hl).2
  refine ⟨strip_eq_self ?_ ?_, joinNL_ne_nil hL hne⟩
  · rw [joinNL_head? hL hne]
    exact head_false_of_ok (hok _ (List.head_mem hL)).1
  · rw [joinNL_getLast? hL hne]
    exact last_false_of_ok (hok _ (List.getLast_mem hL)).1

theorem joinNL_length : ∀ {L : List (List Char)}, L ≠ [] →
    (joinNL L).length = (L.map List.length).sum + (L.length - 1) := by
  intro L
  induction L with
  | nil => intro h; exact absurd rfl h
  | cons x xs ih =>
    intro _
    cases xs with
    | nil => simp [joinNL]
    | cons y ys =>
      rw [joinNL_cons x (by simp), List.length_append]
      rw [List.length_cons, ih (by simp)]
      simp only [List.map_cons, List.sum_cons, List.length_cons]
      omega

theorem joinNL_middle_le (A B C : List (List Char)) (hB : B ≠ []) :
    (joinNL B).length ≤ (joinNL (A ++ B ++ C)).length := by
  have hABC : A ++ B ++ C ≠ [] := by
    simp only [ne_eq, List.append_eq_nil]
    intro ⟨⟨_, h⟩, _⟩
    exact hB h
  rw [joinNL_length hB, joinNL_length hABC]
  simp only [List.map_append, List.sum_append, List.length_append]
  have h1 : 1 ≤ B.length := List.length_pos.mpr hB
  omega

theorem joinNL_append {A B : List (List Char)} (hA : A ≠ []) (hB : B ≠ []) :
    joinNL (A ++ B) = joinNL A ++ '\n' :: joinNL B := by
  induction A with
  | nil => exact absurd rfl hA
  | cons x xs ih =>
    cases xs with
    | nil =>
      rw [List.singleton_append, joinNL_cons x hB]
      rfl
    | cons y ys =>
      rw [List.cons_append, joinNL_cons x (by simp), joinNL_cons x (by simp)]
      rw [ih (by simp)]
      simp

/-! Section: Helper lemmas about `clean_text` -/

theorem replaceSubFuel_id {old new' : List Char} :
    ∀ (fuel : Nat) (t : List Char), containsSub old t = false →
    replaceSubFuel old new' fuel t = t := by
  intro fuel
  induction fuel with
  | zero => intro t _; rfl
  | succ f ih =>
    intro t h
    cases t with
    | nil => rfl
    | cons c rest =>
      rw [containsSub, Bool.or_eq_false_iff] at h
      rw [replaceSubFuel, if_neg (by simp [h.1]), ih rest h.2]

theorem replaceSub_id {old new' t : List Char}
    (h : containsSub old t = false) : replaceSub old new' t = t :=
  replaceSubFuel_id _ t h

theorem foldl_replaceSub_id :
    ∀ (reps : List (List Char × List Char)) (t : List Char),
    (∀ p ∈ reps, containsSub p.1 t = false) →
    reps.foldl (fun s p => replaceSub p.1 p.2 s) t = t := by
  intro reps
  induction reps with
  | nil => intro t _; rfl
  | cons p ps ih =>
    intro t h
    rw [List.foldl_cons, replaceSub_id (h p (by simp)), ih t (fun q hq => h q (by simp [hq]))]

theorem clean_text_fixed {t : List Char} (h : cleanTriggerFree t = true) :
    clean_text t = t := by
  rw [cleanTriggerFree, Bool.and_eq_true, beq_iff_eq] at h
  obtain ⟨htrig, hhal⟩ := h
  rw [List.all_eq_true] at htrig
  have habs : ∀ old ∈ triggerLHS, containsSub old t = false := by
    intro old hold
    have := htrig old hold
    rwa [Bool.not_eq_true'] at this
  have hreps : ∀ p ∈ replacements, containsSub p.1 t = false := fun p hp =>
    habs p.1 (by rw [triggerLHS]; exact List.mem_append_left _ (List.mem_map_of_mem _ hp))
  have hrest : ∀ old ∈ ["नागर्ि कता".data, "नागर्ि क".data, ['‍'], ['‌'], "(ª)".data],
      containsSub old t = false := fun old hold =>
    habs old (by rw [triggerLHS]; exact List.mem_append_right _ hold)
  rw [clean_text, foldl_replaceSub_id _ _ hreps, hhal,
    replaceSub_id (hrest _ (by simp)), replaceSub_id (hrest _ (by simp)),
    replaceSub_id (hrest _ (by simp)), replaceSub_id (hrest _ (by simp)),
    replaceSub_id (hrest _ (by simp))]

/-! Section: Helper lemmas about the retrieval merge -/

theorem mem_insertDesc {a x : Retrieved} :
    ∀ {l : List Retrieved}, x ∈ insertDesc a l ↔ x = a ∨ x ∈ l := by
  intro l
  induction l with
  | nil => simp [insertDesc]
  | cons y ys ih =>
    rw [insertDesc]
    by_cases hy : y.relevance ≤ a.relevance
    · rw [if_pos hy]
      simp
    · rw [if_neg hy]
      simp only [List.mem_cons, ih]
      tauto

theorem pairwise_insertDesc {a : Retrieved} {l : List Retrieved}
    (h : l.Pairwise (fun x y => y.relevance ≤ x.relevance)) :
    (insertDesc a l).Pairwise (fun x y => y.relevance ≤ x.relevance) := by
  induction l with
  | nil => simp [insertDesc]
  | cons y ys ih =>
    rw [List.pairwise_cons] at h
    rw [insertDesc]
    by_cases hy : y.relevance ≤ a.relevance
    · rw [if_pos hy]
      refine List.pairwise_cons.mpr ⟨?_, List.pairwise_cons.mpr h⟩
      intro z hz
      rcases List.mem_cons.mp hz with rfl | hz'
      · exact hy
      · exact le_trans (h.1 z hz') hy
    · rw [if_neg hy]
      refine List.pairwise_cons.mpr ⟨?_, ih h.2⟩
      intro z hz
      rcases mem_insertDesc.mp hz with rfl | hz'
      · exact le_of_lt (lt_of_not_le hy)
      · exact h.1 z hz'

theorem pairwise_sortDesc (l : List Retrieved) :
    (sortDesc l).Pairwise (fun x y => y.relevance ≤ x.relevance) := by
  induction l with
  | nil => simp [sortDesc]
  | cons x xs ih => exact pairwise_insertDesc ih

theorem dedupGo_sublist : ∀ (l : List Retrieved) (seen : List (List Char)),
    List.Sublist (dedupGo seen l) l := by
  intro l
  induction l with
  | nil => intro seen; exact List.Sublist.refl _
  | cons r rs ih =>
    intro seen
    rw [dedupGo]
    by_cases hr : r.text ∈ seen
    · rw [if_pos hr]
      exact (ih seen).cons r
    · rw [if_neg hr]
      exact (ih (r.text :: seen)).cons₂ r

theorem dedupGo_filter (t : List Char) :
    ∀ (l : List Retrieved) (seen : List (List Char)),
    (t ∈ seen → (dedupGo seen l).filter (fun r => r.text == t) = []) ∧
    (t ∉ seen →
      (dedupGo seen l).filter (fun r => r.text == t) =
        (l.filter (fun r => r.text == t)).take 1) := by
  intro l
  induction l with
  | nil => intro seen; simp [dedupGo]
  | cons r rs ih =>
    intro seen
    constructor
    · intro ht
      rw [dedupGo]
      by_cases hr : r.text ∈ seen
      · rw [if_pos hr]
        exact (ih seen).1 ht
      · rw [if_neg hr]
        have he : ¬ r.text = t := fun h => hr (h ▸ ht)
        have htail := (ih (r.text :: seen)).1 (List.mem_cons_of_mem _ ht)
        simp [List.filter_cons, he, htail]
    · intro ht
      rw [dedupGo]
      by_cases hr : r.text ∈ seen
      · rw [if_pos hr]
        have he : ¬ r.text = t := fun h => ht (h ▸ hr)
        rw [(ih seen).2 ht]
        simp [List.filter_cons, he]
      · rw [if_neg hr]
        by_cases he : r.text = t
        · subst he
          have htail : (dedupGo (r.text :: seen) rs).filter (fun x => x.text == r.text) = [] :=
            (ih (r.text :: seen)).1 (List.mem_cons_self _ _)
          simp [List.filter_cons, htail]
        · have htail := (ih (r.text :: seen)).2 (by
            intro hmem
            rcases List.mem_cons.mp hmem with h' | h'
            · exact he h'.symm
            · exact ht h')
          simp [List.filter_cons, he, htail]

/-! Section: Claim theorems -/

/-- C8: segmenting the three cleaned example lines with budget 800 emits
exactly two `complete_section` chunks: the chapter header line with
hierarchical title `परिच्छेद–१` (the placeholder `Header` label is
omitted), then the remaining two lines with title `परिच्छेद–१ > दफा १`. -/
theorem c8_example_scenario :
    (processPDF ex8pages "doc.pdf".data 800).map
      (fun c => (c.text, c.metadata.lookup "hierarchical_title", c.metadata.lookup "chunk_type")) =
    [ ("परिच्छेद–१ केही कुरा".data,
       some (.s "परिच्छेद–१".data), some (.s "complete_section".data)),
      (("दफा १ यो एक परीक्षण हो।" ++ "\n" ++ "यो लामो पाठ हो।").data,
       some (.s "परिच्छेद–१ > दफा १".data), some (.s "complete_section".data)) ] := by
  decide

/-- C5 counterexample: `clean_text` is not idempotent on a text containing
none of the legacy font's special sequences — a run of four plain spaces
(collapsed pairwise, left to right) shrinks again on a second pass. -/
theorem c5_counterexample :
    clean_text (clean_text "क    ख".data) ≠ clean_text "क    ख".data := by
  decide

/-- C5 amended: the repair/clean step is idempotent at every text whose
once-cleaned form contains no occurrence of any replacement-table pattern
(including the double-space pattern) and is a fixed point of the
trailing-halanta rewrite. -/
theorem c5_repair_idem (x : List Char)
    (h : cleanTriggerFree (clean_text x) = true) :
    clean_text (clean_text x) = clean_text x :=
  clean_text_fixed h

theorem c5_repair_idem_witness :
    cleanTriggerFree (clean_text "नमस्ते".data) = true ∧
    clean_text (clean_text "नमस्ते".data) = clean_text "नमस्ते".data :=
  ⟨by decide, c5_repair_idem "नमस्ते".data (by decide)⟩

/-- C1 counterexample: with one private hit and one permanent hit sharing
the text "A", the private hit (score 1/2) is first in the pre-sort
concatenation, yet `retrieve_context` keeps the later, higher-scoring
permanent duplicate (score 9/10): dedup runs after the sort, not before. -/
theorem c1_counterexample :
    mergedResults (some (.ok [c1userHit])) (some (.ok [c1permHit])) =
      [ { id := "u1".data, text := "A".data, relevance := 1/2, source := "user_document" },
        { id := "p1".data, text := "A".data, relevance := 9/10, source := "permanent_kb" } ] ∧
    retrieveContext (some (.ok [c1userHit])) (some (.ok [c1permHit])) 5 =
      [ { id := "p1".data, text := "A".data, relevance := 9/10, source := "permanent_kb" } ] := by
  norm_num [retrieveContext, mergedResults, sourceResults, processHits,
    c1userHit, c1permHit, sortDesc, insertDesc, dedupGo]

/-- C1 amended: deduplication is by exact chunk-text equality and keeps the
first occurrence in the *post-sort* order (the highest-scoring duplicate;
ties keep the pre-sort encounter order of the stable sort): for every text,
the deduplicated merged list (before top-k truncation) restricted to that
text is exactly the first sorted entry carrying it. -/
theorem c1_dedup_post_sort (user perm : SearchOutcome) (t : List Char) :
    (dedupGo [] (sortDesc (mergedResults user perm))).filter (fun r => r.text == t) =
    ((sortDesc (mergedResults user perm)).filter (fun r => r.text == t)).take 1 :=
  (dedupGo_filter t (sortDesc (mergedResults user perm)) []).2 (by simp)

/-- C6: `retrieve_context` returns at most `top_k` results, with relevance
scores non-increasing. -/
theorem c6_topk_sorted (user perm : SearchOutcome) (topK : Nat) :
    (retrieveContext user perm topK).length ≤ topK ∧
    (retrieveContext user perm topK).Pairwise (fun a b => b.relevance ≤ a.relevance) := by
  constructor
  · exact List.length_take_le _ _
  · exact (pairwise_sortDesc (mergedResults user perm)).sublist
      ((List.take_sublist _ _).trans (dedupGo_sublist _ []))

/-- A pattern whose first character differs from the first character of
the text cannot be a prefix of it. -/
theorem isPrefixOf_false_of_head_ne {p t : List Char} {a c : Char}
    (hp : p.head? = some a) (ht : t.head? = some c) (h : a ≠ c) :
    p.isPrefixOf t = false := by
  cases p with
  | nil => simp at hp
  | cons x xs =>
    cases t with
    | nil => simp at ht
    | cons y ys =>
      simp only [List.head?_cons, Option.some_inj] at hp ht
      subst hp; subst ht
      simp [List.isPrefixOf, beq_eq_false_iff_ne, h]

/-- A line accepted by `section_pattern` starts (after leading whitespace)
with a Devanagari digit. -/
theorem sectionMatch_head {l n : List Char} (h : sectionMatch l = some n) :
    ∃ c rest, l.dropWhile isSpaceChar = c :: rest ∧ isNepDigit c = true := by
  rw [sectionMatch] at h
  cases hr : l.dropWhile isSpaceChar with
  | nil => rw [hr] at h; simp at h
  | cons c rest =>
    rw [hr] at h
    by_cases hc : isNepDigit c
    · exact ⟨c, rest, rfl, hc⟩
    · rw [List.takeWhile_cons, if_neg hc] at h
      simp at h

theorem chapterMatch_none_of_digit {l : List Char} {c : Char} {rest : List Char}
    (hr : l.dropWhile isSpaceChar = c :: rest) (hc : isNepDigit c = true) :
    chapterMatch l = none := by
  have hne : 'प' ≠ c := by
    intro he
    rw [← he] at hc
    exact absurd hc (by decide)
  have hp : ("परिच्छेद".data.isPrefixOf (l.dropWhile isSpaceChar)) = false := by
    rw [hr]
    exact isPrefixOf_false_of_head_ne (by decide) List.head?_cons hne
  rw [chapterMatch]
  simp [hp]

theorem dafaMatch_none_of_digit {l : List Char} {c : Char} {rest : List Char}
    (hr : l.dropWhile isSpaceChar = c :: rest) (hc : isNepDigit c = true) :
    dafaMatch l = none := by
  have hne : 'द' ≠ c := by
    intro he
    rw [← he] at hc
    exact absurd hc (by decide)
  have hp : ("दफा".data.isPrefixOf (l.dropWhile isSpaceChar)) = false := by
    rw [hr]
    exact isPrefixOf_false_of_head_ne (by decide) List.head?_cons hne
  rw [dafaMatch]
  simp [hp]

/-- C7: the boundary classifier tries Chapter, Article (`दफा`), Section,
Sub-Article in that fixed order and the first match wins; in particular a
line matching the Section pattern is always classified as Section (its
digit head excludes the keyword patterns, and Sub-Article is tried later),
and a line matching no pattern is ordinary content (`none`). -/
theorem c7_classifier_priority (l n : List Char) :
    (sectionMatch l = some n → classify l = some (.sect n)) ∧
    (chapterMatch l = none → dafaMatch l = none → sectionMatch l = none →
      upaMatch l = none → classify l = none) := by
  constructor
  · intro hs
    obtain ⟨c, rest, hr, hc⟩ := sectionMatch_head hs
    rw [classify, chapterMatch_none_of_digit hr hc, dafaMatch_none_of_digit hr hc, hs]
  · intro h1 h2 h3 h4
    rw [classify, h1, h2, h3, h4]

theorem c7_classifier_priority_witness :
    classify "५८८. (१) कखग".data = some (.sect "५८८".data) ∧
    classify "कखग अब".data = none :=
  ⟨(c7_classifier_priority "५८८. (१) कखग".data "५८८".data).1 (by decide),
   (c7_classifier_priority "कखग अब".data []).2 (by decide) (by decide) (by decide) (by decide)⟩

/-- The page index after one line step, as a function of the line's
classification: chapter/dafa/section openings set it to the 1-based page
of the triggering line; everything else (including a sub-article opening)
leaves it unchanged. -/
theorem processLine_pageIdx (src : List Char) (mt : Nat) (st : SegState)
    (pn : Nat) (l : List Char) :
    (processLine src mt st pn l).pageIdx =
      (if (strip l).isEmpty then st.pageIdx
       else if is_garbage_line (strip l) then st.pageIdx
       else match classify (strip l) with
            | some (.chapter _) => pn + 1
            | some (.dafa _) => pn + 1
            | some (.sect _) => pn + 1
            | some (.upa _) => st.pageIdx
            | none => st.pageIdx) := by
  rw [processLine]
  by_cases h1 : (strip l).isEmpty
  · simp [h1]
  · by_cases h2 : is_garbage_line (strip l)
    · simp [h1, h2]
    · simp only [h1, h2, Bool.false_eq_true, if_false]
      cases hcl : classify (strip l) with
      | none => simp
      | some b =>
        cases b with
        | chapter n => simp
        | dafa n => simp
        | sect n => simp
        | upa n =>
          by_cases hu : st.upaDafa.isSome <;> simp [hu]

/-- C4 amended: the current page index is set to the page of the
triggering line exactly on Chapter, Article (`दफा`) and Section
transitions; a Sub-Article transition, an ordinary content line, a noise
line and an empty line all leave it unchanged. -/
theorem c4_page_update (src : List Char) (mt : Nat) (st : SegState)
    (pn : Nat) (l : List Char) :
    (∀ n, strip l ≠ [] → is_garbage_line (strip l) = false →
      (classify (strip l) = some (.chapter n) ∨ classify (strip l) = some (.dafa n) ∨
       classify (strip l) = some (.sect n)) →
      (processLine src mt st pn l).pageIdx = pn + 1) ∧
    (∀ n, strip l ≠ [] → is_garbage_line (strip l) = false →
      classify (strip l) = some (.upa n) →
      (processLine src mt st pn l).pageIdx = st.pageIdx) ∧
    (classify (strip l) = none → (processLine src mt st pn l).pageIdx = st.pageIdx) ∧
    (strip l = [] ∨ is_garbage_line (strip l) = true →
      (processLine src mt st pn l).pageIdx = st.pageIdx) := by
  have hm := processLine_pageIdx src mt st pn l
  refine ⟨?_, ?_, ?_, ?_⟩
  · intro n hne hng hcl
    rw [hm]
    have hie : (strip l).isEmpty = false := by simp [hne]
    rcases hcl with h | h | h <;> simp [hie, hng, h]
  · intro n hne hng hcl
    rw [hm]
    have hie : (strip l).isEmpty = false := by simp [hne]
    simp [hie, hng, hcl]
  · intro hcl
    rw [hm]
    by_cases h1 : (strip l).isEmpty
    · simp [h1]
    · by_cases h2 : is_garbage_line (strip l) <;> simp [h1, h2, hcl]
  · intro h
    rw [hm]
    rcases h with h | h
    · simp [h]
    · by_cases h1 : (strip l).isEmpty <;> simp [h1, h]

theorem c4_page_update_witness :
    (processLine "doc.pdf".data 800 initState 4 "दफा १ कखग".data).pageIdx = 5 ∧
    (processLine "doc.pdf".data 800 initState 4 "(१) कखगघङ".data).pageIdx = initState.pageIdx :=
  ⟨(c4_page_update "doc.pdf".data 800 initState 4 "दफा १ कखग".data).1 "१".data
      (by decide) (by decide) (Or.inr (Or.inl (by decide))),
   (c4_page_update "doc.pdf".data 800 initState 4 "(१) कखगघङ".data).2.1 "१".data
      (by decide) (by decide) (by decide)⟩

/-- C4 counterexample: in `c4pages` the unit `"(२) दोस्रो वाक्य"` is the
sub-unit opened by the first line of the second page (0-based page index
1, so its page should be 2 by the claim), yet its emitted chunk carries
page 1: the sub-article branch does not update the page index. -/
theorem c4_counterexample :
    (processPDF c4pages "doc.pdf".data 800).map (fun c => (c.text, c.metadata.lookup "page")) =
      [ (("दफा १ कखग" ++ "\n" ++ "(१) पहिलो वाक्य").data, some (.n 1)),
        ("(२) दोस्रो वाक्य".data, some (.n 1)),
        ("दफा २ कखग".data, some (.n 2)) ] ∧
    (1 : Nat) ≠ 2 := by
  exact ⟨by decide, by decide⟩

/-- C9: a backend failure while searching one collection is isolated to
that source: the retrieval result is exactly the one obtained when that
source contributes zero results, and `retrieve_context` still returns
normally (the other source's results are unaffected). -/
theorem c9_error_isolation (e : String) (user perm : SearchOutcome) (topK : Nat) :
    retrieveContext (some (.error e)) perm topK =
      retrieveContext (some (.ok [])) perm topK ∧
    retrieveContext user (some (.error e)) topK =
      retrieveContext user (some (.ok [])) topK := by
  exact ⟨rfl, rfl⟩

/-! Section: Chunk shape invariants of the size governor -/

theorem splitSentFuel_no_term :
    ∀ (fuel : Nat) (l : List Char), ∀ s ∈ splitSentFuel fuel l, ∀ x ∈ s,
      isTermChar x = false := by
  intro fuel
  induction fuel with
  | zero =>
    intro l s hs x hx
    simp only [splitSentFuel, List.mem_singleton] at hs
    subst hs
    simp at hx
  | succ f ih =>
    intro l
    cases l with
    | nil =>
      intro s hs x hx
      simp only [splitSentFuel, List.mem_singleton] at hs
      subst hs
      simp at hx
    | cons c rest =>
      intro s hs x hx
      rw [splitSentFuel] at hs
      by_cases hc : isTermChar c
      · rw [if_pos hc] at hs
        rcases List.mem_cons.mp hs with rfl | hs'
        · simp at hx
        · exact ih _ s hs' x hx
      · rw [if_neg hc] at hs
        cases hsp : splitSentFuel f rest with
        | nil =>
          rw [hsp] at hs
          rcases List.mem_singleton.mp hs with rfl
          rcases List.mem_singleton.mp hx with rfl
          exact eq_false_of_ne_true hc
        | cons s0 ss =>
          rw [hsp] at hs
          rcases List.mem_cons.mp hs with rfl | hs'
          · rcases List.mem_cons.mp hx with rfl | hx'
            · exact eq_false_of_ne_true hc
            · exact ih rest s0 (hsp ▸ List.mem_cons_self _ _) x hx'
          · exact ih rest s (hsp ▸ List.mem_cons_of_mem _ hs') x hx

theorem splitSent_no_term (l : List Char) :
    ∀ s ∈ splitSent l, ∀ x ∈ s, isTermChar x = false :=
  splitSentFuel_no_term l.length l

theorem splitGo_mem (ch df : List Char) (ud : Option (List Char)) (ti : List Char)
    (pg : Nat) (src : List Char) (mt : Nat) :
    ∀ (sents : List (List Char)) (cur : List Char) (idx : Nat) (chunks : List Chunk),
    (∀ s ∈ sents, ∀ x ∈ s, isTermChar x = false) →
    (cur = [] ∨ cur.length / 4 ≤ mt ∨ (cur.filter isTermChar).length ≤ 1) →
    ∀ c ∈ splitGo ch df ud ti pg src mt sents cur idx chunks,
      c ∈ chunks ∨ ∃ cur2 i2, c = mkSplit ch df ud ti pg src cur2 i2 ∧
        (cur2.length / 4 ≤ mt ∨ (cur2.filter isTermChar).length ≤ 1) := by
  intro sents
  induction sents with
  | nil =>
    intro cur idx chunks _ hcur c hc
    rw [splitGo] at hc
    by_cases hs : (strip cur).isEmpty
    · rw [if_pos hs] at hc
      exact Or.inl hc
    · rw [if_neg hs] at hc
      rcases List.mem_append.mp hc with h | h
      · exact Or.inl h
      · right
        refine ⟨cur, idx, List.mem_singleton.mp h, ?_⟩
        rcases hcur with rfl | h2
        · exact absurd (show strip [] = [] from rfl) (by simpa using hs)
        · exact h2
  | cons s rest ih =>
    intro cur idx chunks hsents hcur c hc
    have hsrest : ∀ s' ∈ rest, ∀ x ∈ s', isTermChar x = false :=
      fun s' hs' => hsents s' (List.mem_cons_of_mem _ hs')
    have hs2term : ((strip s ++ ['।']).filter isTermChar).length ≤ 1 := by
      have hnil : (strip s).filter isTermChar = [] := by
        rw [List.filter_eq_nil]
        intro x hx
        have hxs : x ∈ s := (strip_sublist s).subset hx
        simp [hsents s (List.mem_cons_self _ _) x hxs]
      rw [List.filter_append, hnil, List.nil_append]
      decide
    rw [splitGo] at hc
    by_cases h1 : (strip s).isEmpty
    · rw [if_pos h1] at hc
      exact ih cur idx chunks hsrest hcur c hc
    · rw [if_neg h1] at hc
      simp only at hc
      cases cur with
      | nil =>
        simp only [List.isEmpty_nil, Bool.not_true, Bool.and_false,
          Bool.false_eq_true, if_false, if_true] at hc
        exact ih _ idx chunks hsrest (Or.inr (Or.inr hs2term)) c hc
      | cons a as =>
        simp only [List.isEmpty_cons, Bool.not_false, Bool.and_true] at hc
        by_cases h2 : mt < ((a :: as) ++ ' ' :: (strip s ++ ['।'])).length / 4
        · rw [if_pos (by simpa using h2)] at hc
          have hinv : (a :: as).length / 4 ≤ mt ∨
              ((a :: as).filter isTermChar).length ≤ 1 := by
            rcases hcur with h | h | h
            · exact absurd h (by simp)
            · exact Or.inl h
            · exact Or.inr h
          rcases ih _ (idx + 1) _ hsrest (Or.inr (Or.inr hs2term)) c hc with h | h
          · rcases List.mem_append.mp h with h' | h'
            · exact Or.inl h'
            · exact Or.inr ⟨a :: as, idx, List.mem_singleton.mp h', hinv⟩
          · exact Or.inr h
        · rw [if_neg (by simpa using h2)] at hc
          have hle : ((a :: as) ++ ' ' :: (strip s ++ ['।'])).length / 4 ≤ mt :=
            Nat.le_of_not_lt h2
          exact ih _ idx chunks hsrest (Or.inr (Or.inl hle)) c hc

theorem saveChunk_mem (chunks : List Chunk) (lines : List (List Char))
    (ch df : List Char) (ud : Option (List Char)) (pg : Nat) (src : List Char)
    (mt : Nat) :
    ∀ c ∈ saveChunk chunks lines ch df ud pg src mt,
      c ∈ chunks ∨ GovernedChunk mt c := by
  intro c hc
  rw [saveChunk] at hc
  by_cases h1 : lines.isEmpty
  · rw [if_pos h1] at hc
    exact Or.inl hc
  · rw [if_neg h1] at hc
    simp only at hc
    by_cases h2 : (strip (joinNL lines)).isEmpty
    · rw [if_pos h2] at hc
      exact Or.inl hc
    · rw [if_neg h2] at hc
      by_cases h3 : (strip (joinNL lines)).length / 4 ≤ mt
      · rw [if_pos h3] at hc
        rcases List.mem_append.mp hc with h | h
        · exact Or.inl h
        · rcases List.mem_singleton.mp h with rfl
          exact Or.inr (Or.inl ⟨ch, df, ud, hierTitle ch df ud, pg, src, rfl, h3⟩)
      · rw [if_neg h3] at hc
        rw [splitLargeChunk] at hc
        rcases splitGo_mem ch df ud (hierTitle ch df ud) pg src mt
            (splitSent (strip (joinNL lines))) [] 1 chunks
            (splitSent_no_term _) (Or.inl rfl) c hc with h | h
        · exact Or.inl h
        · obtain ⟨cur2, i2, hceq, hp⟩ := h
          exact Or.inr (Or.inr ⟨ch, df, ud, hierTitle ch df ud, pg, src, cur2, i2, hceq, hp⟩)

/-- One loop step either leaves the emitted chunks unchanged or flushes
the current buffer through the size governor. -/
theorem processLine_chunks (src : List Char) (mt : Nat) (st : SegState)
    (pn : Nat) (l : List Char) :
    (processLine src mt st pn l).chunks = st.chunks ∨
    (processLine src mt st pn l).chunks =
      saveChunk st.chunks st.textLines st.chapter st.dafa st.upaDafa st.pageIdx src mt := by
  rw [processLine]
  by_cases h1 : (strip l).isEmpty
  · simp [h1]
  · by_cases h2 : is_garbage_line (strip l)
    · simp [h1, h2]
    · simp only [h1, h2, Bool.false_eq_true, if_false]
      cases hcl : classify (strip l) with
      | none => simp
      | some b =>
        cases b with
        | chapter n => simp
        | dafa n => simp
        | sect n => simp
        | upa n => by_cases hu : st.upaDafa.isSome <;> simp [hu]

theorem foldl_lines_mem (src : List Char) (mt pn : Nat) :
    ∀ (ls : List (List Char)) (st : SegState),
    (∀ c ∈ st.chunks, GovernedChunk mt c) →
    ∀ c ∈ (ls.foldl (fun st l => processLine src mt st pn l) st).chunks,
      GovernedChunk mt c := by
  intro ls
  induction ls with
  | nil => intro st h c hc; exact h c hc
  | cons l ls ih =>
    intro st h
    rw [List.foldl_cons]
    apply ih
    intro c hc
    rcases processLine_chunks src mt st pn l with he | he
    · rw [he] at hc; exact h c hc
    · rw [he] at hc
      rcases saveChunk_mem _ _ _ _ _ _ _ _ c hc with h' | h'
      · exact h c h'
      · exact h'

theorem foldl_pages_mem (src : List Char) (mt : Nat) :
    ∀ (prs : List (Nat × List (List Char))) (st : SegState),
    (∀ c ∈ st.chunks, GovernedChunk mt c) →
    ∀ c ∈ (prs.foldl
        (fun st pr => pr.2.foldl (fun st l => processLine src mt st pr.1 l) st) st).chunks,
      GovernedChunk mt c := by
  intro prs
  induction prs with
  | nil => intro st h c hc; exact h c hc
  | cons pr prs ih =>
    intro st h
    rw [List.foldl_cons]
    exact ih _ (foldl_lines_mem src mt pr.1 pr.2 st h)

/-- Every chunk `process_pdf_for_rag` produces has a governed shape. -/
theorem processPDF_mem (pages : List (List (List Char))) (src : List Char)
    (mt : Nat) : ∀ c ∈ processPDF pages src mt, GovernedChunk mt c := by
  intro c hc
  rw [processPDF] at hc
  rcases saveChunk_mem _ _ _ _ _ _ _ _ c hc with h | h
  · exact foldl_pages_mem src mt pages.enum initState (by simp [initState]) c h
  · exact h

theorem lookup_chunkType_complete (ch df : List Char) (ud : Option (List Char))
    (ti : List Char) (pg : Nat) (src : List Char) (est : Nat) :
    (completeMeta ch df ud ti pg src est).lookup "chunk_type" =
      some (.s "complete_section".data) := rfl

theorem lookup_chunkType_split (ch df : List Char) (ud : Option (List Char))
    (ti : List Char) (pg : Nat) (src : List Char) (pn est : Nat) :
    (splitMeta ch df ud ti pg src pn est).lookup "chunk_type" =
      some (.s "split_section".data) := rfl

theorem lookup_pageEnd_complete (ch df : List Char) (ud : Option (List Char))
    (ti : List Char) (pg : Nat) (src : List Char) (est : Nat) :
    (completeMeta ch df ud ti pg src est).lookup "page_end" = none := rfl

theorem lookup_pageEnd_split (ch df : List Char) (ud : Option (List Char))
    (ti : List Char) (pg : Nat) (src : List Char) (pn est : Nat) :
    (splitMeta ch df ud ti pg src pn est).lookup "page_end" = none := rfl

/-- C2: every chunk the size governor emits for a unit (beyond the chunks
already accumulated) respects the budget: a `complete_section` chunk has
estimated tokens (`⌊length/4⌋` of its text) at most `max_tokens`, and a
`split_section` chunk does too unless it consists of a single sentence
(at most one sentence terminator — split sentences are terminator-free,
so a one-sentence chunk carries exactly its one re-attached terminator). -/
theorem c2_size_governor_bound (chunks : List Chunk) (lines : List (List Char))
    (ch df : List Char) (ud : Option (List Char)) (pg : Nat) (src : List Char)
    (mt : Nat) (c : Chunk) (hc : c ∈ saveChunk chunks lines ch df ud pg src mt) :
    c ∈ chunks ∨
    ((c.metadata.lookup "chunk_type" = some (.s "complete_section".data) →
        c.text.length / 4 ≤ mt) ∧
     (c.metadata.lookup "chunk_type" = some (.s "split_section".data) →
        c.text.length / 4 ≤ mt ∨ (c.text.filter isTermChar).length ≤ 1)) := by
  rcases saveChunk_mem chunks lines ch df ud pg src mt c hc with h | h
  · exact Or.inl h
  · right
    rcases h with ⟨ch', df', ud', ti', pg', src', hm, hb⟩ |
      ⟨ch', df', ud', ti', pg', src', cur, i, hceq, hp⟩
    · refine ⟨fun _ => hb, fun hsplit => ?_⟩
      rw [hm, lookup_chunkType_complete] at hsplit
      exact absurd hsplit (by decide)
    · subst hceq
      constructor
      · intro hcomp
        rw [show (mkSplit ch' df' ud' ti' pg' src' cur i).metadata =
            splitMeta ch' df' ud' ti' pg' src' i (cur.length / 4) from rfl,
          lookup_chunkType_split] at hcomp
        exact absurd hcomp (by decide)
      · intro _
        rcases hp with h | h
        · exact Or.inl (le_trans (Nat.div_le_div_right (strip_length_le cur)) h)
        · exact Or.inr (le_trans ((strip_sublist cur).filter isTermChar).length_le h)

theorem c2_size_governor_bound_witness :
    c2chunk ∈ saveChunk [] ["कखगघ".data] "Unknown".data "Intro".data none 1 "doc.pdf".data 800 ∧
    (c2chunk ∈ ([] : List Chunk) ∨
      ((c2chunk.metadata.lookup "chunk_type" = some (.s "complete_section".data) →
          c2chunk.text.length / 4 ≤ 800) ∧
       (c2chunk.metadata.lookup "chunk_type" = some (.s "split_section".data) →
          c2chunk.text.length / 4 ≤ 800 ∨ (c2chunk.text.filter isTermChar).length ≤ 1))) :=
  ⟨by decide,
   c2_size_governor_bound [] ["कखगघ".data] "Unknown".data "Intro".data none 1
     "doc.pdf".data 800 c2chunk (by decide)⟩

/-- C10: whenever `process_document` succeeds, the reported `num_pages` is
0 for every input: it reads the metadata key `page_end`, which the chunker
never writes (chunk metadata carries only `page`). -/
theorem c10_num_pages_zero (pages : List (List (List Char))) (src : List Char)
    (h : (processDocument pages src).success = true) :
    (processDocument pages src).numPages = .n 0 := by
  rw [processDocument] at h ⊢
  cases hl : (processPDF pages src 800).getLast? with
  | none => rfl
  | some c =>
    show (List.lookup "page_end" c.metadata).getD (MVal.n 0) = MVal.n 0
    have hmem : c ∈ processPDF pages src 800 := by
      obtain ⟨hne, heq⟩ :=
        List.mem_getLast?_eq_getLast (l := processPDF pages src 800) (x := c) hl
      exact heq.symm ▸ List.getLast_mem hne
    rcases processPDF_mem pages src 800 c hmem with
      ⟨ch', df', ud', ti', pg', src', hm, _⟩ |
      ⟨ch', df', ud', ti', pg', src', cur, i, hceq, _⟩
    · rw [hm, lookup_pageEnd_complete]
      rfl
    · rw [hceq]
      rw [show (mkSplit ch' df' ud' ti' pg' src' cur i).metadata =
          splitMeta ch' df' ud' ti' pg' src' i (cur.length / 4) from rfl,
        lookup_pageEnd_split]
      rfl

theorem c10_num_pages_zero_witness :
    (processDocument ex8pages "doc.pdf".data).success = true ∧
    (processDocument ex8pages "doc.pdf".data).numPages = .n 0 :=
  ⟨by decide, c10_num_pages_zero ex8pages "doc.pdf".data (by decide)⟩

/-! Section: Data preservation across the segmentation loop -/

theorem keptLine_eq_some {l s : List Char} (h : keptLine l = some s) :
    strip l = s ∧ (strip l).isEmpty = false ∧ is_garbage_line (strip l) = false := by
  rw [keptLine] at h
  by_cases h1 : (strip l).isEmpty
  · rw [if_pos h1] at h; simp at h
  · rw [if_neg h1] at h
    by_cases h2 : is_garbage_line (strip l)
    · rw [if_pos h2] at h; simp at h
    · rw [if_neg h2] at h
      simp only [Option.some_inj] at h
      exact ⟨h, by simp [h1], by simp [h2]⟩

theorem keptOfFlat_nil : keptOfFlat [] = [] := rfl

theorem keptOfFlat_cons_none {pl : Nat × List Char} (rest : List (Nat × List Char))
    (hk : keptLine pl.2 = none) : keptOfFlat (pl :: rest) = keptOfFlat rest := by
  rw [keptOfFlat, List.filterMap_cons, hk]
  rfl

theorem keptOfFlat_cons_some {pl : Nat × List Char} {s : List Char}
    (rest : List (Nat × List Char)) (hk : keptLine pl.2 = some s) :
    keptOfFlat (pl :: rest) = s :: keptOfFlat rest := by
  rw [keptOfFlat, List.filterMap_cons, hk]
  rfl

/-- A noise or blank line leaves the whole cursor untouched. -/
theorem processLine_skip (src : List Char) (mt : Nat) (st : SegState)
    (pn : Nat) (l : List Char) (hk : keptLine l = none) :
    processLine src mt st pn l = st := by
  rw [keptLine] at hk
  rw [processLine]
  by_cases h1 : (strip l).isEmpty
  · simp [h1]
  · by_cases h2 : is_garbage_line (strip l)
    · simp [h1, h2]
    · rw [if_neg h1, if_neg h2] at hk
      simp at hk

/-- On a kept line, the loop body reduces to the classification cascade
applied to the stripped line. -/
theorem processLine_eq_of_kept (src : List Char) (mt : Nat) (st : SegState)
    (pn : Nat) (l s : List Char) (hk : keptLine l = some s) :
    processLine src mt st pn l =
      match classify s with
      | some (.chapter n) =>
        { chapter := "परिच्छेद–".data ++ n, dafa := "Header".data, upaDafa := none,
          textLines := [s], pageIdx := pn + 1,
          chunks := saveChunk st.chunks st.textLines st.chapter st.dafa st.upaDafa st.pageIdx src mt }
      | some (.dafa n) =>
        { chapter := st.chapter, dafa := "दफा ".data ++ n, upaDafa := none,
          textLines := [s], pageIdx := pn + 1,
          chunks := saveChunk st.chunks st.textLines st.chapter st.dafa st.upaDafa st.pageIdx src mt }
      | some (.sect n) =>
        { chapter := st.chapter, dafa := "दफा ".data ++ n, upaDafa := none,
          textLines := [s], pageIdx := pn + 1,
          chunks := saveChunk st.chunks st.textLines st.chapter st.dafa st.upaDafa st.pageIdx src mt }
      | some (.upa n) =>
        let st1 :=
          if st.upaDafa.isSome then
            { st with
              chunks := saveChunk st.chunks st.textLines st.chapter st.dafa st.upaDafa st.pageIdx src mt,
              textLines := [] }
          else st
        { st1 with upaDafa := some ('(' :: n ++ [')']), textLines := st1.textLines ++ [s] }
      | none =>
        { st with textLines := st.textLines ++ [s] } := by
  obtain ⟨hs, h1, h2⟩ := keptLine_eq_some hk
  rw [processLine, hs]
  rw [hs] at h1 h2
  rw [if_neg (by simp [h1]), if_neg (by simp [h2])]

theorem saveChunk_nil (chunks : List Chunk) (ch df : List Char)
    (ud : Option (List Char)) (pg : Nat) (src : List Char) (mt : Nat) :
    saveChunk chunks [] ch df ud pg src mt = chunks := rfl

theorem saveChunk_small (chunks : List Chunk) (lines : List (List Char))
    (ch df : List Char) (ud : Option (List Char)) (pg : Nat) (src : List Char)
    (mt : Nat) (hne : lines ≠ []) (hok : ∀ l ∈ lines, strip l = l ∧ l ≠ [])
    (hbound : (joinNL lines).length / 4 ≤ mt) :
    saveChunk chunks lines ch df ud pg src mt =
      chunks ++ [{ text := joinNL lines,
                   metadata := completeMeta ch df ud (hierTitle ch df ud) pg src
                     ((joinNL lines).length / 4) }] := by
  obtain ⟨hstrip, hjne⟩ := joinNL_strip hne hok
  rw [saveChunk, if_neg (by simp [hne])]
  simp only [hstrip]
  rw [if_neg (by simp [hjne]), if_pos hbound]

/-- Flushing a within-budget buffer of stripped, non-empty lines extends
the emitted text (joined across chunks) by exactly the buffer's joined
lines, preserving the emptiness correspondence. -/
theorem flush_join (chunks : List Chunk) (flushed lines : List (List Char))
    (ch df : List Char) (ud : Option (List Char)) (pg : Nat) (src : List Char)
    (mt : Nat)
    (hok : ∀ l ∈ lines, strip l = l ∧ l ≠ [])
    (hiff : chunks = [] ↔ flushed = [])
    (hjoin : joinNL (chunks.map Chunk.text) = joinNL flushed)
    (hbound : lines ≠ [] → (joinNL lines).length / 4 ≤ mt) :
    joinNL ((saveChunk chunks lines ch df ud pg src mt).map Chunk.text) =
      joinNL (flushed ++ lines) ∧
    (saveChunk chunks lines ch df ud pg src mt = [] ↔ flushed ++ lines = []) := by
  cases lines with
  | nil =>
    rw [saveChunk_nil]
    simp [hjoin, hiff]
  | cons l0 ls =>
    have hne : l0 :: ls ≠ [] := by simp
    rw [saveChunk_small chunks _ ch df ud pg src mt hne hok (hbound hne)]
    constructor
    · rw [List.map_append]
      by_cases hf : flushed = []
      · have hch : chunks = [] := hiff.mpr hf
        rw [hch, hf]
        simp [joinNL]
      · have hch : chunks ≠ [] := fun h => hf (hiff.mp h)
        have hmap : chunks.map Chunk.text ≠ [] := by simp [hch]
        rw [joinNL_append hmap (by simp), joinNL_append hf hne, hjoin]
        rfl
    · simp

/-- The nested page/line folds flattened to a single fold over
(page index, line) pairs. -/
theorem foldl_flat (src : List Char) (mt : Nat) :
    ∀ (prs : List (Nat × List (List Char))) (st : SegState),
    prs.foldl (fun st pr => pr.2.foldl (fun st l => processLine src mt st pr.1 l) st) st =
    (prs.flatMap fun pr => pr.2.map fun l => (pr.1, l)).foldl
      (fun st pl => processLine src mt st pl.1 pl.2) st := by
  intro prs
  induction prs with
  | nil => intro st; rfl
  | cons pr prs ih =>
    intro st
    rw [List.foldl_cons, List.flatMap_cons, List.foldl_append, ih, List.foldl_map]

/-- Main invariant run of the segmentation loop under a global budget:
starting from a cursor whose flushed text and buffer account for the kept
lines processed so far, finishing the run flushes exactly the remaining
kept lines, with no loss, duplication or alteration. -/
theorem run_flat (src : List Char) (mt : Nat) (full : List (Nat × List Char))
    (Hb : (joinNL (keptOfFlat full)).length / 4 ≤ mt) :
    ∀ (rest : List (Nat × List Char)) (st : SegState) (flushed : List (List Char)),
    flushed ++ st.textLines ++ keptOfFlat rest = keptOfFlat full →
    (∀ l ∈ st.textLines, strip l = l ∧ l ≠ []) →
    (st.chunks = [] ↔ flushed = []) →
    joinNL (st.chunks.map Chunk.text) = joinNL flushed →
    joinNL ((runFinish src mt
        (rest.foldl (fun st pl => processLine src mt st pl.1 pl.2) st)).map Chunk.text) =
      joinNL (keptOfFlat full) := by
  intro rest
  induction rest with
  | nil =>
    intro st flushed hflu hok hiff hjoin
    rw [List.foldl_nil]
    have hflu' : flushed ++ st.textLines = keptOfFlat full := by
      simpa [keptOfFlat_nil] using hflu
    have hbound : st.textLines ≠ [] → (joinNL st.textLines).length / 4 ≤ mt := by
      intro hne
      have hmid := joinNL_middle_le flushed st.textLines (keptOfFlat []) hne
      rw [hflu] at hmid
      exact le_trans (Nat.div_le_div_right hmid) Hb
    obtain ⟨hj, _⟩ := flush_join st.chunks flushed st.textLines st.chapter st.dafa
      st.upaDafa st.pageIdx src mt hok hiff hjoin hbound
    rw [runFinish, hj, hflu']
  | cons pl rest ih =>
    intro st flushed hflu hok hiff hjoin
    rw [List.foldl_cons]
    cases hk : keptLine pl.2 with
    | none =>
      rw [processLine_skip src mt st pl.1 pl.2 hk]
      rw [keptOfFlat_cons_none rest hk] at hflu
      exact ih st flushed hflu hok hiff hjoin
    | some s =>
      obtain ⟨hs, h1, h2⟩ := keptLine_eq_some hk
      have hsok : strip s = s ∧ s ≠ [] := by
        constructor
        · rw [← hs, strip_idem]
        · intro h
          rw [← hs] at h
          rw [h] at h1
          simp at h1
      rw [keptOfFlat_cons_some rest hk] at hflu
      have hbound : st.textLines ≠ [] → (joinNL st.textLines).length / 4 ≤ mt := by
        intro hne
        have hmid := joinNL_middle_le flushed st.textLines (s :: keptOfFlat rest) hne
        rw [hflu] at hmid
        exact le_trans (Nat.div_le_div_right hmid) Hb
      rw [processLine_eq_of_kept src mt st pl.1 pl.2 s hk]
      have hokS : ∀ l ∈ [s], strip l = l ∧ l ≠ [] := by
        intro l hl
        rw [List.mem_singleton.mp hl]
        exact hsok
      have hflushNew :
          (flushed ++ st.textLines) ++ [s] ++ keptOfFlat rest = keptOfFlat full := by
        rw [← hflu]
        simp [List.append_assoc]
      obtain ⟨hjF, hiffF⟩ := flush_join st.chunks flushed st.textLines st.chapter st.dafa
        st.upaDafa st.pageIdx src mt hok hiff hjoin hbound
      cases hcl : classify s with
      | none =>
        apply ih { st with textLines := st.textLines ++ [s] } flushed
        · rw [← hflu]
          simp [List.append_assoc]
        · intro l hl
          rcases List.mem_append.mp hl with h | h
          · exact hok l h
          · rw [List.mem_singleton.mp h]
            exact hsok
        · exact hiff
        · exact hjoin
      | some b =>
        cases b with
        | chapter n =>
          exact ih _ (flushed ++ st.textLines) hflushNew hokS hiffF hjF
        | dafa n =>
          exact ih _ (flushed ++ st.textLines) hflushNew hokS hiffF hjF
        | sect n =>
          exact ih _ (flushed ++ st.textLines) hflushNew hokS hiffF hjF
        | upa n =>
          by_cases hu : st.upaDafa.isSome
          · simp only [hu, if_pos]
            exact ih _ (flushed ++ st.textLines) (by simpa using hflushNew) hokS hiffF hjF
          · simp only [hu, if_neg]
            apply ih { st with
                upaDafa := some ('(' :: n ++ [')']),
                textLines := st.textLines ++ [s] } flushed
            · rw [← hflu]
              simp [List.append_assoc]
            · intro l hl
              rcases List.mem_append.mp hl with h | h
              · exact hok l h
              · rw [List.mem_singleton.mp h]
                exact hsok
            · exact hiff
            · exact hjoin

/-- C3 counterexample: a unit routed through the size governor's split
path is altered — the single kept line `"कखगघकखगघ"` (no sentence
terminator, over a budget of 1) is emitted with a fabricated trailing
`।`, so the concatenated chunk text differs from the kept input lines. -/
theorem c3_counterexample :
    joinNL ((processPDF c3pages "doc.pdf".data 1).map Chunk.text) ≠
      joinNL (keptLines c3pages) := by
  decide

/-- C3 amended: for any input whose kept content, taken as a whole, fits
the token budget (so no unit can reach the split path), the concatenation
of all emitted chunks' text equals the concatenation of the input lines
with noise and empty lines removed — nothing dropped, duplicated or
altered.  (The split path does alter text: see the counterexample.) -/
theorem c3_no_data_loss (pages : List (List (List Char))) (src : List Char)
    (mt : Nat) (Hb : (joinNL (keptLines pages)).length / 4 ≤ mt) :
    joinNL ((processPDF pages src mt).map Chunk.text) = joinNL (keptLines pages) := by
  rw [processPDF, foldl_flat]
  exact run_flat src mt (pagesFlat pages) Hb (pagesFlat pages) initState []
    (by simp [initState]) (by simp [initState]) (by simp [initState]) (by simp [initState])

theorem c3_no_data_loss_witness :
    (joinNL (keptLines ex8pages)).length / 4 ≤ 800 ∧
    joinNL ((processPDF ex8pages "doc.pdf".data 800).map Chunk.text) =
      joinNL (keptLines ex8pages) :=
  ⟨by decide, c3_no_data_loss ex8pages "doc.pdf".data 800 (by decide)⟩

end SevaBot
